import Mathlib

/-!
Verification development for a YouTube-transcript signal-extraction pipeline.

The program pulls the newest video per configured channel, acquires a transcript
through a fallback chain, and turns the text into a structured row: a sentiment
label, an extractive summary, ranked key points, and extracted entities
(tickers, macro terms, action words, price or percentage levels).

Text is modelled as a list of characters. The Python regular expressions used
by the source (compiled once at module load) are modelled by hand-rolled
scanners that follow the exact backtracking behaviour of the patterns on the
character classes involved; each scanner carries a comment naming the pattern
it embeds. All definitions are translated from the source files app.py and
tools/ingestor.py, which duplicate the same extraction logic.
-/

/-- Text is modelled as a list of characters, one per Python string character. -/
abbrev Text := List Char

/-- Python regex class \s restricted to the ASCII range (space, tab, newline,
carriage return, vertical tab, form feed). -/
def isPySpace (c : Char) : Bool :=
  c = ' ' || c = '\t' || c = '\n' || c = '\r' || c = '\x0b' || c = '\x0c'

/-- Python regex word character class \w restricted to ASCII: letters, digits,
underscore. Used for the \b word-boundary checks. -/
def isWordChar (c : Char) : Bool :=
  c.isAlphanum || c = '_'

/-- One pass of re.sub with pattern \s+ and replacement a single space: every
maximal whitespace run becomes one space. The flag records whether the
previous character was part of a whitespace run. -/
def collapseAux : Bool → Text → Text
  | _, [] => []
  | prevSp, c :: rest =>
    if isPySpace c then
      if prevSp then collapseAux true rest else ' ' :: collapseAux true rest
    else c :: collapseAux false rest

/-- Remove trailing characters satisfying p (the right-hand half of a Python
str.strip). -/
def dropTrail (p : Char → Bool) (t : Text) : Text :=
  (t.reverse.dropWhile p).reverse

/-- Python str.strip on whitespace: drop leading then trailing whitespace. -/
def stripWs (t : Text) : Text :=
  dropTrail isPySpace (t.dropWhile isPySpace)

/-- tidy_text from app.py line 113 and ingestor.py line 37:
re.sub of \s+ by one space followed by strip. -/
def tidy_text (t : Text) : Text :=
  stripWs (collapseAux false t)

/-- Splitter loop for re.split on pattern (?<=[.!?])\s+ applied to tidied text:
after tidying, whitespace runs are single spaces, so the split points are
exactly the spaces whose preceding character is a sentence terminator. The
accumulator holds the current sentence reversed. -/
def splitAux : Text → Text → List Text
  | acc, [] => [acc.reverse]
  | acc, c :: rest =>
    if c = ' ' && (match acc with
                   | p :: _ => p = '.' || p = '!' || p = '?'
                   | [] => false) then
      acc.reverse :: splitAux [] rest
    else
      splitAux (c :: acc) rest

/-- split_sentences from app.py line 52 (same as split_sents in ingestor.py
line 38): tidy the text, then split after sentence-terminal punctuation
followed by whitespace. On empty input this returns a one-element list
holding the empty sentence, exactly as Python re.split does. -/
def split_sentences (t : Text) : List Text :=
  splitAux [] (tidy_text t)

/-- Python str.lower restricted to ASCII letters. -/
def lowerText (t : Text) : Text :=
  t.map Char.toLower

/-- Python substring containment (the in operator on str). -/
def containsSub (w : Text) : Text → Bool
  | [] => w.isEmpty
  | c :: rest => List.isPrefixOf w (c :: rest) || containsSub w rest

/-- Python str.join with a separator. -/
def joinSep (sep : Text) : List Text → Text
  | [] => []
  | [x] => x
  | x :: y :: xs => x ++ sep ++ joinSep sep (y :: xs)

/-- Python string comparison: lexicographic on character code points, a
proper prefix is smaller. -/
def ltText : Text → Text → Bool
  | [], [] => false
  | [], _ :: _ => true
  | _ :: _, [] => false
  | a :: xs, b :: ys => decide (a < b) || (decide (a = b) && ltText xs ys)

/-- Insertion step realising Python sorted over a set of strings: insert into
an ascending list, dropping the element when already present. -/
def insertSD (x : Text) : List Text → List Text
  | [] => [x]
  | y :: ys =>
    if ltText x y then x :: y :: ys
    else if x = y then y :: ys
    else y :: insertSD x ys

/-- Python sorted(set(l)) for lists of strings: ascending order, duplicates
removed. -/
def sortDedup (l : List Text) : List Text :=
  l.foldr insertSD []

/-- Match attempt for TICKER_DOLLAR, pattern \$[A-Z]{1,5}\b, at the current
position. A match exists exactly when a dollar sign is followed by a run of
one to five uppercase letters whose following character is not a word
character (backtracking inside [A-Z]{1,5} cannot help, because every shorter
prefix of the run is followed by an uppercase letter). Returns the captured
letters, source code takes x[1:] of the match. -/
def dollarMatch : Text → Option Text
  | '$' :: rest =>
    let run := rest.takeWhile Char.isUpper
    if run.length = 0 || 5 < run.length then none
    else
      match rest.dropWhile Char.isUpper with
      | [] => some run
      | d :: _ => if isWordChar d then none else some run
  | _ => none

/-- Scanning loop of re.findall for TICKER_DOLLAR: try a match at every
position, and after a match resume right after it (non-overlapping matches).
The fuel argument only forces structural recursion; it starts at the length
of the text and every step consumes at least one character, so it is never
exhausted. -/
def dollarAux : Nat → Text → List Text
  | 0, _ => []
  | _, [] => []
  | fuel + 1, c :: rest =>
    match dollarMatch (c :: rest) with
    | some run => run :: dollarAux fuel ((c :: rest).drop (run.length + 1))
    | none => dollarAux fuel rest

/-- TICKER_DOLLAR.findall with the leading dollar stripped from each match. -/
def tickerDollarFindall (t : Text) : List Text := dollarAux t.length t

/-- Numeric part of PCT, pattern \d+(?:\.\d+)?% : a maximal digit run, an
optional dot with a maximal digit run, then the percent sign. Backtracking
into the digit runs cannot produce a match when this parse fails, because a
shorter run leaves a digit where the percent sign is required. Returns the
consumed characters. -/
def pctNum (cs : Text) : Option Text :=
  let d1 := cs.takeWhile Char.isDigit
  if d1.isEmpty then none
  else
    match cs.dropWhile Char.isDigit with
    | '%' :: _ => some (d1 ++ ['%'])
    | '.' :: r2 =>
      let d2 := r2.takeWhile Char.isDigit
      if d2.isEmpty then none
      else
        match r2.dropWhile Char.isDigit with
        | '%' :: _ => some (d1 ++ '.' :: (d2 ++ ['%']))
        | _ => none
    | _ => none

/-- Match attempt for PCT, pattern \b-?\d+(?:\.\d+)?%. The word boundary
before an optional minus sign holds exactly when the previous character is a
word character (minus is not a word character); before a digit it holds
exactly when the previous character is not a word character. prevW records
the wordness of the previous character, false at the start of the text. -/
def pctMatch (prevW : Bool) (cs : Text) : Option Text :=
  match cs with
  | '-' :: rest => if prevW then (pctNum rest).map (fun m => '-' :: m) else none
  | _ => if prevW then none else pctNum cs

/-- Scanning loop of re.findall for PCT. Matches end in a percent sign, which
is not a word character, so the wordness flag after a match is false. Fuel
as in dollarAux. -/
def pctAux : Nat → Bool → Text → List Text
  | 0, _, _ => []
  | _, _, [] => []
  | fuel + 1, prevW, c :: rest =>
    match pctMatch prevW (c :: rest) with
    | some m => m :: pctAux fuel false ((c :: rest).drop (max 1 m.length))
    | none => pctAux fuel (isWordChar c) rest

/-- PCT.findall on a text. -/
def pctFindall (t : Text) : List Text := pctAux t.length false t

/-- The (?:,\d{3})* part of PRICE: greedily consume comma groups of exactly
three digits. -/
def commaGroups : Text → Text
  | ',' :: a :: b :: c :: r =>
    if a.isDigit && b.isDigit && c.isDigit then ',' :: a :: b :: c :: commaGroups r
    else []
  | _ => []

/-- Numeric part of PRICE, pattern \d{1,3}(?:,\d{3})*(?:\.\d+)? : one to three
digits taken greedily from the leading digit run, comma groups, optional
decimal part. Everything after the first digits is optional, so the greedy
parse is the regex result. Returns the consumed characters. -/
def priceNum (cs : Text) : Option Text :=
  let run := cs.takeWhile Char.isDigit
  if run.isEmpty then none
  else
    let d1 := run.take 3
    let r1 := cs.drop d1.length
    let g := commaGroups r1
    let r2 := r1.drop g.length
    match r2 with
    | '.' :: rd =>
      let d2 := rd.takeWhile Char.isDigit
      if d2.isEmpty then some (d1 ++ g) else some (d1 ++ g ++ '.' :: d2)
    | _ => some (d1 ++ g)

/-- Match attempt for PRICE, pattern (?:\$|£|€)\s?\d{1,3}(?:,\d{3})*(?:\.\d+)? :
a currency sign, at most one whitespace character (kept only when digits
follow, per backtracking of \s?), then the numeric part. -/
def priceMatch : Text → Option Text
  | c :: rest =>
    if c = '$' || c = '£' || c = '€' then
      match rest with
      | s :: r2 =>
        if isPySpace s then (priceNum r2).map (fun m => c :: s :: m)
        else (priceNum rest).map (fun m => c :: m)
      | [] => none
    else none
  | [] => none

/-- Scanning loop of re.findall for PRICE (the pattern has no word-boundary
assertions, so no context is needed). Fuel as in dollarAux. -/
def priceAux : Nat → Text → List Text
  | 0, _ => []
  | _, [] => []
  | fuel + 1, c :: rest =>
    match priceMatch (c :: rest) with
    | some m => m :: priceAux fuel ((c :: rest).drop (max 1 m.length))
    | none => priceAux fuel rest

/-- PRICE.findall on a text. -/
def priceFindall (t : Text) : List Text := priceAux t.length t

/-- Match attempt for PLAIN_TICKER, pattern \b[A-Z]{2,5}\b : at a position
whose previous character is not a word character, a maximal run of two to
five uppercase letters followed by a non-word character or the end. As for
TICKER_DOLLAR, backtracking inside the counted class cannot help. -/
def plainMatch (prevW : Bool) (cs : Text) : Option Text :=
  if prevW then none
  else
    let run := cs.takeWhile Char.isUpper
    if run.length < 2 || 5 < run.length then none
    else
      match cs.dropWhile Char.isUpper with
      | [] => some run
      | d :: _ => if isWordChar d then none else some run

/-- Scanning loop of re.findall for PLAIN_TICKER. A match ends in an
uppercase letter, a word character, so the wordness flag after it is true.
Fuel as in dollarAux. -/
def plainAux : Nat → Bool → Text → List Text
  | 0, _, _ => []
  | _, _, [] => []
  | fuel + 1, prevW, c :: rest =>
    match plainMatch prevW (c :: rest) with
    | some run => run :: plainAux fuel true ((c :: rest).drop (max 1 run.length))
    | none => plainAux fuel (isWordChar c) rest

/-- PLAIN_TICKER.findall on a text. -/
def plainTickerFindall (t : Text) : List Text := plainAux t.length false t

/-- Word-boundary suffix check for re.search of a whole word: the character
right after the candidate occurrence must not be a word character. Sound for
the vocabularies used here, whose words end in a letter. -/
def wbAfterOk (w : Text) (cs : Text) : Bool :=
  match cs.drop w.length with
  | [] => true
  | d :: _ => !isWordChar d

/-- Scanning loop for re.search of a pattern \b w \b built from a literal
vocabulary word w (all such words start and end with a letter, so both
boundaries reduce to the neighbouring character not being a word character). -/
def wbSearchAux (w : Text) (prevW : Bool) : Text → Bool
  | [] => false
  | c :: rest =>
    (!prevW && List.isPrefixOf w (c :: rest) && wbAfterOk w (c :: rest))
      || wbSearchAux w (isWordChar c) rest

/-- Existence of a whole-word occurrence of the vocabulary word w in the
text, modelling re.search of \b w \b. -/
def wbSearch (w : Text) (t : Text) : Bool := wbSearchAux w false t

/-- The fixed asset vocabulary CRYPTO from app.py line 41 and ingestor.py
line 26. Python iterates it as a set, so downstream uses must not depend on
its order; the list keeps the source order of the literal. -/
def CRYPTO : List Text :=
  ["BTC", "ETH", "SOL", "ADA", "XRP", "DOT", "LINK", "AVAX", "MATIC", "DOGE",
   "ARB", "OP", "ATOM", "BNB"].map String.data

/-- The macro-economic keyword vocabulary from app.py line 42. -/
def MACRO_TERMS : List Text :=
  ["cpi", "inflation", "jobs", "nonfarm", "payrolls", "pce", "core", "fomc",
   "fed", "rate", "hike", "cut", "ecb", "boe", "gdp", "recession", "etf",
   "halving", "halvening", "treasury", "yields", "bond"].map String.data

/-- The action keyword vocabulary from app.py line 43. -/
def ACTIONS : List Text :=
  ["buy", "sell", "accumulate", "take profit", "tp", "stop", "stop loss",
   "short", "long", "hedge", "entry", "target"].map String.data

/-- The level keyword vocabulary from app.py line 44. -/
def LEVEL_WORDS : List Text :=
  ["support", "resistance", "target", "entry", "stop", "stoploss",
   "stop-loss"].map String.data

/-- The alternation heads of the LEVEL_NEAR pattern from app.py line 50:
(support|resistance|target|entry|stop) with the IGNORECASE flag. The rest of
the pattern, up to eighty non-terminator characters, can match the empty
string, so an re.search hit is exactly a case-insensitive substring hit of
one of the five heads. -/
def LEVEL_NEAR_KEYS : List Text :=
  ["support", "resistance", "target", "entry", "stop"].map String.data

/-- Whether re.search of LEVEL_NEAR succeeds on a sentence. -/
def levelNearHit (s : Text) : Bool :=
  LEVEL_NEAR_KEYS.any (fun w => containsSub w (lowerText s))

/-- score_sentence from app.py lines 55-65 (identical in ingestor.py lines
40-49), generalised over the four vocabulary sets so that independence from
the Python set iteration order can be stated. The accumulator chain mirrors
the sequence of score += statements. -/
def score_sentenceW (crypto mterms acts lvls : List Text) (s : Text) : Nat :=
  let s_low := lowerText s
  let sc1 := 0 + 3 * (tickerDollarFindall s).length
  let sc2 := sc1 + 2 * (pctFindall s).length
  let sc3 := sc2 + 2 * (priceFindall s).length
  let sc4 := if lvls.any (fun w => containsSub w s_low) then sc3 + 2 else sc3
  let sc5 := if acts.any (fun w => containsSub w s_low) then sc4 + 2 else sc4
  let sc6 := if mterms.any (fun w => containsSub w s_low) then sc5 + 1 else sc5
  sc6 + (crypto.filter (fun c => containsSub c s)).length

/-- score_sentence at the fixed source vocabularies. -/
def score_sentence (s : Text) : Nat :=
  score_sentenceW CRYPTO MACRO_TERMS ACTIONS LEVEL_WORDS s

/-- The record produced by extract_entities: app.py line 83 returns a dict
with these four keys. -/
structure Entities where
  tickers : List Text
  macroTerms : List Text
  actions : List Text
  levels : List Text
deriving DecidableEq, Repr

/-- The all-empty entity record used for missing transcripts, app.py
line 299. -/
def emptyEntities : Entities := ⟨[], [], [], []⟩

/-- Level-sentence annotation built in the loop of app.py lines 76-82: the
stripped sentence followed, when any price or percentage literals occur in
it, by an arrow and the first three of each, space-joined, the two groups
comma-joined. -/
def annotateLevel (sent : Text) : Text :=
  let price_hits := priceFindall sent
  let pct_hits := pctFindall sent
  let pieces :=
    (if price_hits.isEmpty then [] else [joinSep [' '] (price_hits.take 3)]) ++
    (if pct_hits.isEmpty then [] else [joinSep [' '] (pct_hits.take 3)])
  stripWs sent ++
    (if pieces.isEmpty then [] else "  ➜ ".data ++ joinSep ", ".data pieces)

/-- extract_entities from app.py lines 67-83 (identical in ingestor.py lines
51-67), generalised over the crypto, macro and action vocabularies. The
Python set union of dollar-prefixed captures, whole-word vocabulary hits and
plain uppercase tokens equal to a vocabulary symbol, followed by sorted, is
realised by sortDedup of the concatenation. -/
def extract_entitiesW (crypto mterms acts : List Text) (t : Text) : Entities :=
  let low := lowerText t
  { tickers := sortDedup
      (tickerDollarFindall t
        ++ crypto.filter (fun sym => wbSearch sym t)
        ++ (plainTickerFindall t).filter (fun m => decide (m ∈ crypto))),
    macroTerms := sortDedup (mterms.filter (fun w => wbSearch w low)),
    actions := sortDedup (acts.filter (fun w => wbSearch w low)),
    levels := (((split_sentences t).filter levelNearHit).map annotateLevel).take 5 }

/-- extract_entities at the fixed source vocabularies. -/
def extract_entities (t : Text) : Entities :=
  extract_entitiesW CRYPTO MACRO_TERMS ACTIONS t

/-- Python tuple comparison on (score, sentence) pairs: lexicographic, the
score first, the sentence text second. -/
def pairLt (x y : Nat × Text) : Bool :=
  decide (x.1 < y.1) || (decide (x.1 = y.1) && ltText x.2 y.2)

/-- Insertion step of a stable descending sort: an element moves past every
strictly greater element and stops before the first element not strictly
greater, so equal elements keep their original relative order. -/
def insertDesc (x : Nat × Text) : List (Nat × Text) → List (Nat × Text)
  | [] => [x]
  | y :: ys => if pairLt x y then y :: insertDesc x ys else x :: y :: ys

/-- Python sorted(pairs, reverse=True): the unique stable sort into
descending tuple order. -/
def sortDesc (l : List (Nat × Text)) : List (Nat × Text) :=
  l.foldr insertDesc []

/-- The deduplicating selection loop of pick_key_points, app.py lines 88-93:
walk the sorted pairs, skip sentences whose stripped lowercase form was
seen, append the stripped sentence otherwise, and stop as soon as the output
has reached k entries. The output accumulator is kept reversed. -/
def pickLoop (k : Nat) (seen : List Text) (out : List Text) :
    List (Nat × Text) → List Text
  | [] => out.reverse
  | p :: rest =>
    let ss := lowerText (stripWs p.2)
    if ss ∈ seen then pickLoop k seen out rest
    else
      let out2 := stripWs p.2 :: out
      if k ≤ out2.length then out2.reverse
      else pickLoop k (ss :: seen) out2 rest

/-- pick_key_points from app.py lines 85-94 (identical in ingestor.py lines
69-78), generalised over the vocabularies used by the scoring: sentences
longer than 30 characters are paired with their scores, sorted by
sorted(..., reverse=True) on the (score, sentence) tuples, then fed to the
deduplicating selection loop. -/
def pick_key_pointsW (crypto mterms acts lvls : List Text) (t : Text) (k : Nat) :
    List Text :=
  let sents := split_sentences t
  let scored := (sents.filter (fun s => 30 < s.length)).map
    (fun s => (score_sentenceW crypto mterms acts lvls s, s))
  pickLoop k [] [] (sortDesc scored)

/-- pick_key_points at the fixed source vocabularies. -/
def pick_key_points (t : Text) (k : Nat) : List Text :=
  pick_key_pointsW CRYPTO MACRO_TERMS ACTIONS LEVEL_WORDS t k

/-- quick_summary from app.py lines 116-121: tidy the text, return the empty
string when nothing remains, otherwise join the first maxSentences sentences
with single spaces and append a period unless the result already ends in
sentence-terminal punctuation. -/
def quick_summary (t : Text) (maxSentences : Nat) : Text :=
  let t2 := tidy_text t
  if t2.isEmpty then []
  else
    let s := joinSep [' '] ((split_sentences t2).take maxSentences)
    match s.getLast? with
    | some c => if c = '.' || c = '!' || c = '?' then s else s ++ ['.']
    | none => s ++ ['.']

/-- Comparison used by the specification text of the amended key-point
claim: x precedes y when x has the strictly larger score, or the scores are
equal and the sentence text of x is lexicographically at or above that of y. -/
def specBefore (x y : Nat × Text) : Bool :=
  decide (y.1 < x.1) || (decide (x.1 = y.1) && (ltText y.2 x.2 || decide (x.2 = y.2)))

/-- Insertion step of the specification-side descending sort. -/
def specInsert (x : Nat × Text) : List (Nat × Text) → List (Nat × Text)
  | [] => [x]
  | y :: ys => if specBefore x y then x :: y :: ys else y :: specInsert x ys

/-- Specification-side sort: descending by score, ties broken by descending
lexicographic order of the sentence text. -/
def specSortDesc (l : List (Nat × Text)) : List (Nat × Text) :=
  l.foldr specInsert []

/-- Key-point selection as the amended claim words it: score the sentences
longer than 30 characters, order them descending by score with ties broken
by descending lexicographic sentence order, deduplicate case-insensitively
after trimming, keep the first five distinct sentences. -/
def spec_key_points (t : Text) : List Text :=
  let scored := ((split_sentences t).filter (fun s => 30 < s.length)).map
    (fun s => (score_sentence s, s))
  pickLoop 5 [] [] (specSortDesc scored)

/-- The display labels of app.py: label_to_icon, lines 123-126. A classifier
label POSITIVE maps to the bullish icon, NEGATIVE to the bearish one, and
anything else to the neutral one. -/
def label_to_icon (label : Text) : Text :=
  if label = "POSITIVE".data then "🟢 Bullish".data
  else if label = "NEGATIVE".data then "🔴 Bearish".data
  else "🟡 Neutral".data

/-- Per-video metadata delivered by the external feed collaborator
(rss_latest_video) together with the transcript metadata of
fetch_transcript_text. -/
structure Meta where
  videoId : Text
  title : Text
  url : Text
  published : Text
  lang : Option Text
  translated : Bool
deriving DecidableEq, Repr

/-- The output row assembled per channel, app.py lines 303-314. -/
structure Row where
  name : Text
  title : Text
  published : Text
  url : Text
  summary : Text
  sentiment : Text
  keyPoints : List Text
  entities : Entities
  note : Text
deriving DecidableEq, Repr

/-- Python truthiness of the transcript value: None and the empty string are
falsy, app.py line 287 tests if tx. -/
def pyTruthyOpt (o : Option Text) : Bool :=
  match o with
  | some t => !t.isEmpty
  | none => false

/-- The transcript provenance note of app.py line 295: an auto-translation
note when translated with a known language, a language note when the
language is known, empty otherwise (empty language strings are falsy in
Python and yield the empty note). -/
def transcriptNote (lang : Option Text) (translated : Bool) : Text :=
  match lang with
  | some l =>
    if l.isEmpty then []
    else if translated then "(auto-translated from ".data ++ l ++ [')']
    else "(lang: ".data ++ l ++ [')']
  | none => []

/-- The degraded row of app.py lines 296-301: transcript unavailable. -/
def mkUnknownRow (nm : Text) (m : Meta) : Row :=
  { name := nm, title := m.title, published := m.published, url := m.url,
    summary := "Transcript unavailable.".data,
    sentiment := "🟣 Unknown".data,
    keyPoints := [], entities := emptyEntities, note := [] }

/-- The per-channel row assembly of app.py lines 287-314 given a resolved
video and transcript value: when transcript text is present, the tidied full
text feeds entity extraction and key-point selection, while its first 1024
characters form the sample used for the summary, of which the first 512
characters are handed to the sentiment classifier; otherwise the degraded
row is emitted. The classifier is the external capability, modelled as a
function from the sample to a label string. -/
def buildRow (classify : Text → Text) (nm : Text) (m : Meta)
    (tx : Option Text) : Row :=
  match tx with
  | some t =>
    if t.isEmpty then mkUnknownRow nm m
    else
      let full := tidy_text t
      let sample := full.take 1024
      { name := nm, title := m.title, published := m.published, url := m.url,
        summary := quick_summary sample 5,
        sentiment := label_to_icon (classify (sample.take 512)),
        keyPoints := pick_key_points full 5,
        entities := extract_entities full,
        note := transcriptNote m.lang m.translated }
  | none => mkUnknownRow nm m

/-- The error row of app.py lines 317-328, emitted when resolving the latest
video (or anything else inside the per-channel try block) raises. -/
def errorRow (nm : Text) (e : Text) : Row :=
  { name := nm, title := "Unavailable".data, published := [], url := [],
    summary := "Error fetching latest video: ".data ++ e,
    sentiment := "🟣 Unknown".data,
    keyPoints := [], entities := emptyEntities, note := [] }

/-- One iteration of the channel loop of fetch_and_analyze_daily: the
outcome of resolving the channel (everything upstream, feed resolution and
transcript acquisition, may fail with an exception message) is turned into
exactly one row. -/
def channelRow (classify : Text → Text) (nm : Text)
    (outcome : Except Text (Meta × Option Text)) : Row :=
  match outcome with
  | Except.ok (m, tx) => buildRow classify nm m tx
  | Except.error e => errorRow nm e

/-- The fixed channel table YOUTUBERS of app.py lines 26-35, in insertion
order (Python dicts preserve it). -/
def YOUTUBERS : List (Text × Text) :=
  ([("UClgJyzwGs-GyaNxUHcLZrkg", "InvestAnswers"),
    ("UCqK_GSMbpiV8spgD3ZGloSw", "Coin Bureau"),
    ("UC9ZM3N0ybRtp44-WLqsW3iQ", "Mark Moss"),
    ("UCFU-BE5HRJoudqIz1VDKlhQ", "CTO Larsson"),
    ("UCRvqjQPSeaWn-uEx-w0XOIg", "Benjamin Cowen"),
    ("UCtOV5M-T3GcsJAq8QKaf0lg", "Bitcoin Magazine"),
    ("UCpvyOqtEc86X8w8_Se0t4-w", "George Gammon"),
    ("UCK-zlnUfoDHzUwXcbddtnkg", "ArkInvest")] :
      List (String × String)).map (fun p => (p.1.data, p.2.data))

/-- The channel loop of fetch_and_analyze_daily, app.py lines 281-331: every
configured channel contributes exactly one row, built from that channel's
own upstream outcome; the collected batch is returned in channel order. -/
def fetch_and_analyze_daily (resolve : Text → Except Text (Meta × Option Text))
    (classify : Text → Text) : List Row :=
  YOUTUBERS.map (fun p => channelRow classify p.2 (resolve p.1))

/-- An adapter of the transcript fallback chain wraps a capability whose
call can raise (rate limits, disabled captions, transient network errors) or
return no text or return text; the adapter catches every exception and
reports it as found nothing, exactly as the catch-all handlers of
fetch_with_youtube_transcript_api (app.py lines 194-199) and fetch_with_ytdlp
(app.py lines 252-254) do. -/
def adapterRun (cap : Except Unit (Option Text)) : Option Text :=
  match cap with
  | Except.ok r => r
  | Except.error _ => none

/-- fetch_transcript_text from app.py lines 256-267: run the structured
captions adapter first and return its text when truthy (non-empty), else
return whatever the caption-track adapter produced. -/
def fetch_transcript_text (yta ydl : Except Unit (Option Text)) : Option Text :=
  match adapterRun yta with
  | some t => if t.isEmpty then adapterRun ydl else some t
  | none => adapterRun ydl

/-- First sentence of the tie-break counterexample text: score 0, longer
than 30 characters, lexicographically below its sibling. -/
def cexKeySentA : Text := "alpha words here make this rather sizable indeed.".data

/-- Second sentence of the tie-break counterexample text: score 0, longer
than 30 characters, lexicographically above its sibling. -/
def cexKeySentB : Text := "beta words here make this rather sizable indeed.".data

/-- Counterexample text for the key-point tie-break: two equal-score
sentences in a fixed original order. -/
def cexKeyText : Text := cexKeySentA ++ [' '] ++ cexKeySentB

/-- A 1024-character transcript: exactly the sample budget of app.py
line 289. Contains no whitespace, so tidying leaves it unchanged. -/
def cexLongBase : Text := List.replicate 1024 'a'

/-- The same transcript extended past the 1024-character truncation point
with a dollar-prefixed ticker token. -/
def cexLongT2 : Text := cexLongBase ++ "$BTC".data

/-- A 1031-character whitespace-free transcript used to witness the
prefix-dependence of the summary. -/
def wBase : Text := List.replicate 1031 'b'

/-- The witness transcript extended past the truncation point. -/
def wBaseExt : Text := wBase ++ ['Z']

/-- A concrete classifier capability for witnesses: always POSITIVE. -/
def wClassify : Text → Text := fun _ => "POSITIVE".data

/-- A concrete video metadata value for witnesses. -/
def wMeta : Meta :=
  { videoId := [], title := [], url := [], published := [],
    lang := none, translated := false }

/-- A concrete channel name for witnesses. -/
def wName : Text := "ch".data

/-- A concrete whitespace-only input for the whitespace-claim witness. -/
def wSpaces : Text := [' ', '\t', ' ']

/-! Order lemmas for the lexicographic string comparison. -/

theorem ltText_irrefl : ∀ s : Text, ltText s s = false := by
  intro s
  induction s with
  | nil => rfl
  | cons a xs ih => simp [ltText, ih]

theorem ltText_asymm : ∀ s u : Text, ltText s u = true → ltText u s = false := by
  intro s
  induction s with
  | nil =>
    intro u h
    cases u with
    | nil => simp [ltText] at h
    | cons b ys => simp [ltText]
  | cons a xs ih =>
    intro u h
    cases u with
    | nil => simp [ltText] at h
    | cons b ys =>
      simp only [ltText, Bool.or_eq_true, Bool.and_eq_true, decide_eq_true_eq] at h
      rcases h with h | ⟨hab, hxy⟩
      · simp [ltText, lt_asymm h, ne_of_gt h]
      · subst hab
        simp [ltText, lt_irrefl, ih ys hxy]

theorem ltText_trans :
    ∀ s u v : Text, ltText s u = true → ltText u v = true → ltText s v = true := by
  intro s
  induction s with
  | nil =>
    intro u v hsu huv
    cases u with
    | nil => simp [ltText] at hsu
    | cons b ys =>
      cases v with
      | nil => simp [ltText] at huv
      | cons c zs => simp [ltText]
  | cons a xs ih =>
    intro u v hsu huv
    cases u with
    | nil => simp [ltText] at hsu
    | cons b ys =>
      cases v with
      | nil => simp [ltText] at huv
      | cons c zs =>
        simp only [ltText, Bool.or_eq_true, Bool.and_eq_true, decide_eq_true_eq] at hsu huv ⊢
        rcases hsu with h1 | ⟨hab, h1⟩ <;> rcases huv with h2 | ⟨hbc, h2⟩
        · exact Or.inl (lt_trans h1 h2)
        · subst hbc; exact Or.inl h1
        · subst hab; exact Or.inl h2
        · subst hab; subst hbc; exact Or.inr ⟨rfl, ih ys zs h1 h2⟩

theorem ltText_trichot :
    ∀ s u : Text, ltText s u = true ∨ s = u ∨ ltText u s = true := by
  intro s
  induction s with
  | nil =>
    intro u
    cases u with
    | nil => exact Or.inr (Or.inl rfl)
    | cons b ys => exact Or.inl (by simp [ltText])
  | cons a xs ih =>
    intro u
    cases u with
    | nil => exact Or.inr (Or.inr (by simp [ltText]))
    | cons b ys =>
      rcases lt_trichotomy a b with h | h | h
      · exact Or.inl (by simp [ltText, h])
      · subst h
        rcases ih ys with h1 | h1 | h1
        · exact Or.inl (by simp [ltText, h1])
        · exact Or.inr (Or.inl (by rw [h1]))
        · exact Or.inr (Or.inr (by simp [ltText, h1]))
      · exact Or.inr (Or.inr (by simp [ltText, h]))

theorem ltText_false_iff (s u : Text) :
    ltText s u = false ↔ (ltText u s = true ∨ s = u) := by
  constructor
  · intro h
    rcases ltText_trichot s u with h1 | h1 | h1
    · rw [h1] at h; exact absurd h (by simp)
    · exact Or.inr h1
    · exact Or.inl h1
  · rintro (h | h)
    · exact ltText_asymm u s h
    · subst h; exact ltText_irrefl s

theorem ltText_ne (s u : Text) (h : ltText s u = true) : s ≠ u := by
  intro he; subst he; rw [ltText_irrefl] at h; exact absurd h (by simp)

/-! The sorted deduplicating insertion realising Python sorted over a set. -/

theorem mem_insertSD (x y : Text) (l : List Text) :
    y ∈ insertSD x l ↔ y = x ∨ y ∈ l := by
  induction l with
  | nil => simp [insertSD]
  | cons z zs ih =>
    by_cases h1 : ltText x z = true
    · rw [show insertSD x (z :: zs) = x :: z :: zs from by simp [insertSD, h1]]
      simp only [List.mem_cons]
    · by_cases h2 : x = z
      · subst h2
        rw [show insertSD x (x :: zs) = x :: zs from by simp [insertSD, h1]]
        simp only [List.mem_cons]
        tauto
      · rw [show insertSD x (z :: zs) = z :: insertSD x zs from by
          simp [insertSD, h1, h2]]
        simp only [List.mem_cons, ih]
        tauto

theorem mem_sortDedup (x : Text) (l : List Text) :
    x ∈ sortDedup l ↔ x ∈ l := by
  induction l with
  | nil => simp [sortDedup]
  | cons y ys ih =>
    show x ∈ insertSD y (sortDedup ys) ↔ _
    rw [mem_insertSD]
    simp [ih]

theorem sorted_insertSD (x : Text) (l : List Text)
    (h : l.Sorted (fun a b => ltText a b = true)) :
    (insertSD x l).Sorted (fun a b => ltText a b = true) := by
  induction l with
  | nil => simp [insertSD]
  | cons y ys ih =>
    rw [List.sorted_cons] at h
    by_cases h1 : ltText x y = true
    · rw [show insertSD x (y :: ys) = x :: y :: ys from by simp [insertSD, h1]]
      rw [List.sorted_cons]
      refine ⟨?_, by rw [List.sorted_cons]; exact h⟩
      intro b hb
      rcases List.mem_cons.mp hb with hb | hb
      · subst hb; exact h1
      · exact ltText_trans x y b h1 (h.1 b hb)
    · by_cases h2 : x = y
      · rw [show insertSD x (y :: ys) = y :: ys from by
          simp [insertSD, h1, h2, ltText_irrefl]]
        rw [List.sorted_cons]; exact h
      · rw [show insertSD x (y :: ys) = y :: insertSD x ys from by
          simp [insertSD, h1, h2]]
        rw [List.sorted_cons]
        refine ⟨?_, ih h.2⟩
        intro b hb
        rcases (mem_insertSD x b ys).mp hb with hb | hb
        · rw [hb]
          rcases (ltText_false_iff x y).mp (by simpa using h1) with hyx | hxy
          · exact hyx
          · exact absurd hxy h2
        · exact h.1 b hb

theorem sortDedup_sorted (l : List Text) :
    (sortDedup l).Sorted (fun a b => ltText a b = true) := by
  induction l with
  | nil => simp [sortDedup]
  | cons y ys ih => exact sorted_insertSD y (sortDedup ys) ih

theorem sortDedup_nodup (l : List Text) : (sortDedup l).Nodup := by
  have h := sortDedup_sorted l
  exact List.Pairwise.imp (fun hab => ltText_ne _ _ hab) h

theorem sortDedup_eq_of_perm (l₁ l₂ : List Text) (h : l₁.Perm l₂) :
    sortDedup l₁ = sortDedup l₂ := by
  have hm : ∀ x, x ∈ sortDedup l₁ ↔ x ∈ sortDedup l₂ := by
    intro x
    rw [mem_sortDedup, mem_sortDedup]
    exact h.mem_iff
  have hp : (sortDedup l₁).Perm (sortDedup l₂) :=
    (List.perm_ext_iff_of_nodup (sortDedup_nodup l₁) (sortDedup_nodup l₂)).mpr hm
  haveI : IsAntisymm Text (fun a b => ltText a b = true) :=
    ⟨fun a b hab hba => absurd hba (by rw [ltText_asymm a b hab]; simp)⟩
  exact List.eq_of_perm_of_sorted hp (sortDedup_sorted l₁) (sortDedup_sorted l₂)

/-! Equivalence of the source sort and the specification-side sort. -/

theorem specBefore_eq_not_pairLt (x y : Nat × Text) :
    specBefore x y = !pairLt x y := by
  unfold specBefore pairLt
  rcases Nat.lt_trichotomy x.1 y.1 with h | h | h
  · simp [h, Nat.ne_of_lt h, Nat.lt_asymm h]
  · rcases ltText_trichot x.2 y.2 with h2 | h2 | h2
    · simp [h, ltText_asymm _ _ h2, ltText_ne _ _ h2, h2]
    · simp [h, h2, ltText_irrefl]
    · simp [h, h2, ltText_asymm _ _ h2]
  · simp [h, (Nat.ne_of_lt h).symm, Nat.lt_asymm h]

theorem specInsert_eq_insertDesc (x : Nat × Text) (l : List (Nat × Text)) :
    specInsert x l = insertDesc x l := by
  induction l with
  | nil => rfl
  | cons y ys ih =>
    show (if specBefore x y then x :: y :: ys else y :: specInsert x ys) =
      (if pairLt x y then y :: insertDesc x ys else x :: y :: ys)
    rw [specBefore_eq_not_pairLt, ih]
    cases h : pairLt x y <;> simp [h]

theorem specSortDesc_eq_sortDesc (l : List (Nat × Text)) :
    specSortDesc l = sortDesc l := by
  induction l with
  | nil => rfl
  | cons y ys ih =>
    show specInsert y (specSortDesc ys) = insertDesc y (sortDesc ys)
    rw [ih, specInsert_eq_insertDesc]

/-- Claim C1, counterexample. The claim states that equal-score sentences
keep their original relative order in the key-point list. In this text the
two sentences both score 0 and both exceed 30 characters, the first one
precedes the second in the sentence order, yet the key-point list returns
the second sentence first: Python sorted with reverse set compares the
whole (score, sentence) tuples, so tied scores fall through to a descending
lexicographic comparison of the sentence text. -/
theorem claim_C1_counterexample :
    split_sentences cexKeyText = [cexKeySentA, cexKeySentB] ∧
    score_sentence cexKeySentA = score_sentence cexKeySentB ∧
    30 < cexKeySentA.length ∧ 30 < cexKeySentB.length ∧
    cexKeySentA ≠ cexKeySentB ∧
    pick_key_points cexKeyText 5 = [cexKeySentB, cexKeySentA] :=
  ⟨by decide, by decide, by decide, by decide, by decide, by decide⟩

/-- Claim C1 as amended: key-point selection considers exactly the sentences
longer than 30 characters, orders them by descending score with ties broken
by descending lexicographic order of the sentence text (identical
(score, sentence) pairs keep their relative order), removes duplicates
compared case-insensitively after trimming, and returns the first 5 distinct
sentences in that order, for every input text. -/
theorem claim_C1_key_point_selection (t : Text) :
    pick_key_points t 5 = spec_key_points t := by
  simp only [pick_key_points, pick_key_pointsW, spec_key_points, score_sentence,
    specSortDesc_eq_sortDesc]

/-- Claim C4: for every input sentence, the score is the additive total of
+3 per dollar-prefixed token of 1-5 uppercase letters, +2 per percentage
literal, +2 per currency-prefixed price literal, +2 if the lowercased
sentence contains a level keyword, +2 if it contains an action keyword, +1
if it contains a macro keyword, and +1 per configured asset symbol occurring
case-sensitively as a substring of the sentence. -/
theorem claim_C4_score_formula (s : Text) :
    score_sentence s =
      3 * (tickerDollarFindall s).length
        + 2 * (pctFindall s).length
        + 2 * (priceFindall s).length
        + (if LEVEL_WORDS.any (fun w => containsSub w (lowerText s)) then 2 else 0)
        + (if ACTIONS.any (fun w => containsSub w (lowerText s)) then 2 else 0)
        + (if MACRO_TERMS.any (fun w => containsSub w (lowerText s)) then 1 else 0)
        + (CRYPTO.filter (fun c => containsSub c s)).length := by
  simp only [score_sentence, score_sentenceW]
  split_ifs <;> omega

/-! Shape of the captures of the dollar-ticker scanner, used by the ticker
sanitization claim. -/

theorem dollarMatch_shape (cs run : Text) (h : dollarMatch cs = some run) :
    1 ≤ run.length ∧ run.length ≤ 5 ∧ ∀ c ∈ run, c.isUpper = true := by
  unfold dollarMatch at h
  split at h
  case h_2 => exact absurd h (by simp)
  case h_1 _ rest =>
    dsimp only at h
    split_ifs at h with hc
    simp only [Bool.or_eq_true, decide_eq_true_eq, not_or] at hc
    have hrun : ∀ c ∈ List.takeWhile Char.isUpper rest, c.isUpper = true :=
      fun c hcmem => List.mem_takeWhile_imp hcmem
    split at h
    · injection h with h2
      rw [← h2]
      exact ⟨by omega, by omega, hrun⟩
    · split_ifs at h with hw
      injection h with h2
      rw [← h2]
      exact ⟨by omega, by omega, hrun⟩

theorem mem_dollarAux (fuel : Nat) :
    ∀ (cs x : Text), x ∈ dollarAux fuel cs →
      1 ≤ x.length ∧ x.length ≤ 5 ∧ ∀ c ∈ x, c.isUpper = true := by
  induction fuel with
  | zero => intro cs x hx; simp [dollarAux] at hx
  | succ fuel ih =>
    intro cs x hx
    cases cs with
    | nil => simp [dollarAux] at hx
    | cons c rest =>
      rw [show dollarAux (fuel + 1) (c :: rest) =
            (match dollarMatch (c :: rest) with
             | some run => run :: dollarAux fuel ((c :: rest).drop (run.length + 1))
             | none => dollarAux fuel rest) from rfl] at hx
      cases hm : dollarMatch (c :: rest) with
      | some run =>
        rw [hm] at hx
        rcases List.mem_cons.mp hx with hx | hx
        · rw [hx]; exact dollarMatch_shape _ _ hm
        · exact ih _ x hx
      | none =>
        rw [hm] at hx
        exact ih _ x hx

/-- Claim C3: every element of the extracted ticker set either is a
configured asset symbol or was captured from a dollar-prefixed occurrence of
1-5 uppercase letters in the text; bare uppercase tokens outside the
vocabulary never enter the set. -/
theorem claim_C3_ticker_sanitized (t x : Text)
    (h : x ∈ (extract_entities t).tickers) :
    x ∈ CRYPTO ∨
      (x ∈ tickerDollarFindall t ∧
        1 ≤ x.length ∧ x.length ≤ 5 ∧ ∀ c ∈ x, c.isUpper = true) := by
  unfold extract_entities extract_entitiesW at h
  simp only at h
  rw [mem_sortDedup] at h
  rcases List.mem_append.mp h with h1 | h1
  · rcases List.mem_append.mp h1 with h2 | h2
    · exact Or.inr ⟨h2, mem_dollarAux _ _ _ h2⟩
    · exact Or.inl (List.mem_filter.mp h2).1
  · have := (List.mem_filter.mp h1).2
    exact Or.inl (by simpa using this)

/-- Witness for the ticker sanitization claim at a concrete input: the
capture AB of the text dollar AB is not in the vocabulary, so the theorem
places it in the dollar-prefixed branch. -/
theorem claim_C3_ticker_sanitized_witness :
    "AB".data ∈ CRYPTO ∨
      ("AB".data ∈ tickerDollarFindall ("$AB is mentioned".data) ∧
        1 ≤ ("AB".data).length ∧ ("AB".data).length ≤ 5 ∧
        ∀ c ∈ "AB".data, c.isUpper = true) :=
  claim_C3_ticker_sanitized ("$AB is mentioned".data) ("AB".data) (by decide)

/-! Row-level facts about the channel loop. -/

theorem channelRow_name (classify : Text → Text) (nm : Text)
    (o : Except Text (Meta × Option Text)) : (channelRow classify nm o).name = nm := by
  cases o with
  | error e => rfl
  | ok p =>
    rcases p with ⟨m, tx⟩
    cases tx with
    | none => rfl
    | some t =>
      show (buildRow classify nm m (some t)).name = nm
      unfold buildRow
      dsimp only
      split_ifs <;> rfl

/-- Claim C5: a completed pass yields exactly one row per configured
channel, in channel order, whatever the upstream resolution and transcript
behaviour was, including the case in which every upstream call fails; the
resolve argument carries the entire per-channel upstream outcome, so one
channel's failure cannot affect another's row. -/
theorem claim_C5_one_row_per_channel
    (resolve : Text → Except Text (Meta × Option Text)) (classify : Text → Text) :
    (fetch_and_analyze_daily resolve classify).length = YOUTUBERS.length ∧
    (fetch_and_analyze_daily resolve classify).map Row.name = YOUTUBERS.map Prod.snd := by
  constructor
  · simp [fetch_and_analyze_daily]
  · unfold fetch_and_analyze_daily
    rw [List.map_map]
    apply List.map_congr_left
    intro p _
    exact channelRow_name classify p.2 (resolve p.1)

/-- Claim C6: the sentiment field of an emitted row is the Unknown label if
and only if no transcript text was available for the channel in that pass --
the row for a failed resolution carries it, and the row for a resolved video
carries it exactly when the transcript value is absent or empty; whenever
transcript text is present the label is one of the three polarity icons. -/
theorem claim_C6_unknown_iff_no_text (classify : Text → Text) (nm e : Text)
    (m : Meta) (tx : Option Text) :
    (channelRow classify nm (Except.error e)).sentiment = "🟣 Unknown".data ∧
    ((channelRow classify nm (Except.ok (m, tx))).sentiment = "🟣 Unknown".data ↔
      pyTruthyOpt tx = false) ∧
    (pyTruthyOpt tx = true →
      (channelRow classify nm (Except.ok (m, tx))).sentiment ∈
        ["🟢 Bullish".data, "🔴 Bearish".data, "🟡 Neutral".data]) := by
  refine ⟨rfl, ?_, ?_⟩
  · cases tx with
    | none => simp [channelRow, buildRow, mkUnknownRow, pyTruthyOpt]
    | some t =>
      by_cases ht : t.isEmpty
      · simp [channelRow, buildRow, ht, mkUnknownRow, pyTruthyOpt]
      · simp only [channelRow, buildRow, ht, if_false, pyTruthyOpt,
          Bool.not_eq_false, if_neg, Bool.not_eq_true]
        constructor
        · intro hic
          exfalso
          revert hic
          unfold label_to_icon
          split_ifs <;> decide
        · intro hf; exact absurd hf (by simpa using ht)
  · intro htx
    cases tx with
    | none => simp [pyTruthyOpt] at htx
    | some t =>
      have ht : t.isEmpty = false := by
        simpa [pyTruthyOpt] using htx
      simp only [channelRow, buildRow, ht, if_false, Bool.false_eq_true, if_neg,
        Bool.not_eq_true]
      unfold label_to_icon
      split_ifs <;> simp

/-- Witness for the sentiment claim at a concrete input: a present
transcript yields one of the three polarity icons. -/
theorem claim_C6_unknown_iff_no_text_witness :
    pyTruthyOpt (some "hello there.".data) = true ∧
    (channelRow wClassify wName (Except.ok (wMeta, some "hello there.".data))).sentiment ∈
      ["🟢 Bullish".data, "🔴 Bearish".data, "🟡 Neutral".data] :=
  ⟨by decide,
    (claim_C6_unknown_iff_no_text wClassify wName [] wMeta
      (some "hello there.".data)).2.2 (by decide)⟩

/-- Claim C8: the transcript fallback orchestrator consults the structured
captions adapter first and stops there when it yields non-empty text (the
caption-track capability argument is arbitrary, hence unused in that case);
when the first adapter yields nothing or empty text, the result is exactly
the second adapter's; and when both capabilities raise, the catch-all
handlers turn the exceptions into an absent-text result instead of
propagating them. -/
theorem claim_C8_fallback_orchestrator (yta ydl : Except Unit (Option Text))
    (t : Text) :
    (adapterRun yta = some t → t.isEmpty = false →
      fetch_transcript_text yta ydl = some t) ∧
    (pyTruthyOpt (adapterRun yta) = false →
      fetch_transcript_text yta ydl = adapterRun ydl) ∧
    fetch_transcript_text (Except.error ()) (Except.error ()) = none := by
  refine ⟨?_, ?_, rfl⟩
  · intro h1 h2
    simp [fetch_transcript_text, h1, h2]
  · intro h1
    cases hy : adapterRun yta with
    | none => simp [fetch_transcript_text, hy]
    | some u =>
      rw [hy] at h1
      have hu : u.isEmpty = true := by simpa [pyTruthyOpt] using h1
      simp [fetch_transcript_text, hy, hu]

/-- Witness for the orchestrator claim at a concrete input: non-empty text
from the first adapter is returned even though the second capability
raises. -/
theorem claim_C8_fallback_orchestrator_witness :
    fetch_transcript_text (Except.ok (some "hello".data)) (Except.error ()) =
      some "hello".data :=
  (claim_C8_fallback_orchestrator (Except.ok (some "hello".data))
    (Except.error ()) "hello".data).1 rfl (by decide)

/-! Idempotence of the whitespace strip, needed to relate the selection
loop's seen keys to the keys of its output. -/

theorem dropWhile_head_false (p : Char → Bool) :
    ∀ (l : Text) (a : Char) (t' : Text), l.dropWhile p = a :: t' → p a = false := by
  intro l
  induction l with
  | nil => intro a t' h; exact absurd h (by simp)
  | cons c cs ih =>
    intro a t' h
    rw [List.dropWhile_cons] at h
    split_ifs at h with hc
    · exact ih a t' h
    · injection h with h1 _
      rw [← h1]
      simpa using hc

theorem dropWhile_dropWhile (p : Char → Bool) (l : Text) :
    (l.dropWhile p).dropWhile p = l.dropWhile p := by
  cases h : l.dropWhile p with
  | nil => rfl
  | cons a t' =>
    rw [List.dropWhile_cons, dropWhile_head_false p l a t' h]
    simp

theorem dropTrail_dropTrail (p : Char → Bool) (l : Text) :
    dropTrail p (dropTrail p l) = dropTrail p l := by
  simp [dropTrail, dropWhile_dropWhile]

theorem dropWhile_dropTrail_of_head (p : Char → Bool) (a : Char) (t' : Text)
    (ha : p a = false) :
    (dropTrail p (a :: t')).dropWhile p = dropTrail p (a :: t') := by
  unfold dropTrail
  rw [show (a :: t').reverse = t'.reverse ++ [a] from by simp]
  cases hX : t'.reverse.dropWhile p with
  | nil =>
    rw [List.dropWhile_append]
    simp [hX, List.dropWhile_cons, ha]
  | cons x xs =>
    rw [List.dropWhile_append]
    simp only [hX, List.isEmpty_cons, Bool.false_eq_true, if_false, if_neg,
      Bool.not_eq_true]
    rw [List.reverse_append]
    simp [List.dropWhile_cons, ha]

theorem stripWs_idem (t : Text) : stripWs (stripWs t) = stripWs t := by
  unfold stripWs
  cases hB : t.dropWhile isPySpace with
  | nil => simp [dropTrail]
  | cons a t' =>
    have ha : isPySpace a = false := dropWhile_head_false isPySpace t a t' hB
    rw [dropWhile_dropTrail_of_head isPySpace a t' ha,
      dropTrail_dropTrail]

/-! Invariants of the deduplicating selection loop. -/

theorem pickLoop_length (k : Nat) :
    ∀ (l : List (Nat × Text)) (seen out : List Text), out.length < k →
      (pickLoop k seen out l).length ≤ k := by
  intro l
  induction l with
  | nil =>
    intro seen out h
    simpa [pickLoop] using Nat.le_of_lt h
  | cons p rest ih =>
    intro seen out h
    unfold pickLoop
    dsimp only
    split_ifs with h1 h2
    · exact ih seen out h
    · simp only [List.length_reverse, List.length_cons] at h2 ⊢
      omega
    · refine ih _ _ ?_
      simp only [List.length_cons] at h2 ⊢
      omega

theorem pickLoop_pairwise (k : Nat) :
    ∀ (l : List (Nat × Text)) (seen out : List Text),
      (∀ s ∈ out, lowerText (stripWs s) ∈ seen) →
      out.Pairwise (fun a b => lowerText (stripWs a) ≠ lowerText (stripWs b)) →
      (pickLoop k seen out l).Pairwise
        (fun a b => lowerText (stripWs a) ≠ lowerText (stripWs b)) := by
  intro l
  induction l with
  | nil =>
    intro seen out hseen hpw
    show (out.reverse).Pairwise _
    exact List.pairwise_reverse.mpr (List.Pairwise.imp (fun h => Ne.symm h) hpw)
  | cons p rest ih =>
    intro seen out hseen hpw
    unfold pickLoop
    dsimp only
    split_ifs with h1 h2
    · exact ih seen out hseen hpw
    · refine List.pairwise_reverse.mpr (List.Pairwise.imp (fun h => Ne.symm h) ?_)
      refine List.pairwise_cons.mpr ⟨?_, hpw⟩
      intro b hb
      rw [stripWs_idem]
      intro he
      exact h1 (he ▸ hseen b hb)
    · refine ih _ _ ?_ ?_
      · intro s hs
        rcases List.mem_cons.mp hs with hs | hs
        · rw [hs, stripWs_idem]
          exact List.mem_cons_self _ _
        · exact List.mem_cons_of_mem _ (hseen s hs)
      · refine List.pairwise_cons.mpr ⟨?_, hpw⟩
        intro b hb
        rw [stripWs_idem]
        intro he
        exact h1 (he ▸ hseen b hb)

/-- Claim C7: for every input text the key-point list has at most five
entries and no two of them agree after trimming and case-folding, and the
levels list of the extracted entities has at most five entries which appear
in original sentence order (it is a sublist of the annotated sentence
sequence). -/
theorem claim_C7_bounds (t : Text) :
    (pick_key_points t 5).length ≤ 5 ∧
    (pick_key_points t 5).Pairwise
      (fun a b => lowerText (stripWs a) ≠ lowerText (stripWs b)) ∧
    (extract_entities t).levels.length ≤ 5 ∧
    List.Sublist ((extract_entities t).levels)
      ((split_sentences t).map annotateLevel) := by
  refine ⟨?_, ?_, ?_, ?_⟩
  · unfold pick_key_points pick_key_pointsW
    exact pickLoop_length 5 _ [] [] (by simp)
  · unfold pick_key_points pick_key_pointsW
    exact pickLoop_pairwise 5 _ [] [] (by simp) (by simp)
  · show ((((split_sentences t).filter levelNearHit).map annotateLevel).take 5).length ≤ 5
    simp [List.length_take]
  · show List.Sublist ((((split_sentences t).filter levelNearHit).map annotateLevel).take 5) _
    refine List.Sublist.trans (List.take_sublist _ _) ?_
    exact List.Sublist.map annotateLevel (List.filter_sublist _)

/-! Tidying is the identity on whitespace-free text, used to evaluate the
truncation claim on long concrete transcripts. -/

theorem collapseAux_id (t : Text) (h : ∀ c ∈ t, isPySpace c = false) :
    collapseAux false t = t := by
  induction t with
  | nil => rfl
  | cons c rest ih =>
    have hc : isPySpace c = false := h c (List.mem_cons_self c rest)
    rw [show collapseAux false (c :: rest) =
      (if isPySpace c then
        (if false then collapseAux true rest else ' ' :: collapseAux true rest)
       else c :: collapseAux false rest) from rfl]
    rw [hc]
    simp only [Bool.false_eq_true, if_false, if_neg]
    rw [ih (fun d hd => h d (List.mem_cons_of_mem c hd))]

theorem dropWhile_id_of_nonspace (t : Text) (h : ∀ c ∈ t, isPySpace c = false) :
    t.dropWhile isPySpace = t := by
  cases t with
  | nil => rfl
  | cons c rest =>
    rw [List.dropWhile_cons, h c (List.mem_cons_self c rest)]
    simp

theorem tidy_text_id_of_nonspace (t : Text) (h : ∀ c ∈ t, isPySpace c = false) :
    tidy_text t = t := by
  unfold tidy_text stripWs dropTrail
  rw [collapseAux_id t h, dropWhile_id_of_nonspace t h,
    dropWhile_id_of_nonspace t.reverse (fun c hc => h c (List.mem_reverse.mp hc)),
    List.reverse_reverse]

theorem cexLongBase_nonspace : ∀ c ∈ cexLongBase, isPySpace c = false := by
  intro c hc
  rw [List.eq_of_mem_replicate hc]
  decide

theorem cexLongT2_nonspace : ∀ c ∈ cexLongT2, isPySpace c = false := by
  intro c hc
  rcases List.mem_append.mp hc with hc | hc
  · exact cexLongBase_nonspace c hc
  · fin_cases hc <;> decide

set_option maxRecDepth 100000 in
set_option maxHeartbeats 1000000 in
/-- Claim C2, counterexample. The claim states that key-point selection,
entity extraction and summarization all operate on the 1024-character
truncated sample, so that content past the truncation point has no effect on
KeyPoints, Entities and Summary. Here two transcripts agree on the entire
1024-character sample, yet the rows' extracted entities differ: the source
passes the full untruncated text to extract_entities (and to
pick_key_points), only the summary and the classifier sample are
truncated. -/
theorem claim_C2_counterexample :
    List.take 1024 (tidy_text cexLongBase) = List.take 1024 (tidy_text cexLongT2) ∧
    (buildRow wClassify wName wMeta (some cexLongT2)).entities.tickers =
      ["BTC".data] ∧
    (buildRow wClassify wName wMeta (some cexLongBase)).entities.tickers = [] ∧
    (buildRow wClassify wName wMeta (some cexLongT2)).entities ≠
      (buildRow wClassify wName wMeta (some cexLongBase)).entities := by
  have h2 : (buildRow wClassify wName wMeta (some cexLongT2)).entities.tickers =
      ["BTC".data] := by decide
  have h3 : (buildRow wClassify wName wMeta (some cexLongBase)).entities.tickers =
      [] := by decide
  refine ⟨?_, h2, h3, ?_⟩
  · rw [tidy_text_id_of_nonspace cexLongBase cexLongBase_nonspace,
      tidy_text_id_of_nonspace cexLongT2 cexLongT2_nonspace]
    unfold cexLongT2
    rw [List.take_append_of_le_length
      (by rw [show cexLongBase = List.replicate 1024 'a' from rfl,
            List.length_replicate])]
  · intro h
    have hx := congrArg Entities.tickers h
    rw [h2, h3] at hx
    exact absurd hx (by decide)

/-- Claim C2 as amended: the summary and the classifier sample depend only
on the first 1024 characters of the tidied transcript (the classifier sees
the first 512 of those), so transcripts agreeing on that prefix yield
identical Summary and Sentiment; KeyPoints and Entities, by contrast, are
computed from the full tidied transcript, as the counterexample shows. -/
theorem claim_C2_sample_window (classify : Text → Text) (nm : Text) (m : Meta)
    (t1 t2 : Text) (h1 : t1.isEmpty = false) (h2 : t2.isEmpty = false)
    (hp : List.take 1024 (tidy_text t1) = List.take 1024 (tidy_text t2)) :
    (buildRow classify nm m (some t1)).summary =
      (buildRow classify nm m (some t2)).summary ∧
    (buildRow classify nm m (some t1)).sentiment =
      (buildRow classify nm m (some t2)).sentiment := by
  unfold buildRow
  dsimp only
  rw [h1, h2]
  simp only [Bool.false_eq_true, if_false, if_neg]
  constructor
  · show quick_summary (List.take 1024 (tidy_text t1)) 5 =
      quick_summary (List.take 1024 (tidy_text t2)) 5
    rw [hp]
  · show label_to_icon (classify (List.take 512 (List.take 1024 (tidy_text t1)))) =
      label_to_icon (classify (List.take 512 (List.take 1024 (tidy_text t2))))
    rw [hp]

theorem wBase_nonspace : ∀ c ∈ wBase, isPySpace c = false := by
  intro c hc
  rw [List.eq_of_mem_replicate hc]
  decide

theorem wBaseExt_nonspace : ∀ c ∈ wBaseExt, isPySpace c = false := by
  intro c hc
  rcases List.mem_append.mp hc with hc | hc
  · exact wBase_nonspace c hc
  · fin_cases hc <;> decide

/-- Witness for the sample-prefix claim at concrete transcripts that differ
only past the 1024-character budget. -/
theorem claim_C2_sample_window_witness :
    (buildRow wClassify wName wMeta (some wBase)).summary =
      (buildRow wClassify wName wMeta (some wBaseExt)).summary ∧
    (buildRow wClassify wName wMeta (some wBase)).sentiment =
      (buildRow wClassify wName wMeta (some wBaseExt)).sentiment :=
  claim_C2_sample_window wClassify wName wMeta wBase wBaseExt
    (by decide) (by decide)
    (by rw [tidy_text_id_of_nonspace wBase wBase_nonspace,
          tidy_text_id_of_nonspace wBaseExt wBaseExt_nonspace]
        unfold wBaseExt
        rw [List.take_append_of_le_length
          (by rw [show wBase = List.replicate 1031 'b' from rfl,
                List.length_replicate]
              omega)])

/-! Independence of the extraction from the iteration order of the
vocabulary sets. The Python source iterates CRYPTO, MACRO_TERMS, ACTIONS and
LEVEL_WORDS as hash sets, whose iteration order is not fixed across runs;
every use is order-insensitive, which is what makes two runs on the same
text byte-identical. -/

theorem perm_any (l₁ l₂ : List Text) (h : l₁.Perm l₂) (p : Text → Bool) :
    l₁.any p = l₂.any p := by
  cases hb : l₂.any p with
  | true =>
    obtain ⟨x, hx, hp⟩ := List.any_eq_true.mp hb
    exact List.any_eq_true.mpr ⟨x, h.mem_iff.mpr hx, hp⟩
  | false =>
    cases ha : l₁.any p with
    | false => rfl
    | true =>
      obtain ⟨x, hx, hp⟩ := List.any_eq_true.mp ha
      have hb2 := List.any_eq_true.mpr ⟨x, h.mem_iff.mp hx, hp⟩
      rw [hb] at hb2
      exact absurd hb2 (by simp)

theorem score_sentenceW_perm (crypto mterms acts lvls : List Text)
    (hc : crypto.Perm CRYPTO) (hm : mterms.Perm MACRO_TERMS)
    (ha : acts.Perm ACTIONS) (hl : lvls.Perm LEVEL_WORDS) (s : Text) :
    score_sentenceW crypto mterms acts lvls s = score_sentence s := by
  simp only [score_sentence, score_sentenceW]
  rw [perm_any _ _ hl, perm_any _ _ ha, perm_any _ _ hm,
    (hc.filter (fun c => containsSub c s)).length_eq]

theorem extract_entitiesW_perm (crypto mterms acts : List Text)
    (hc : crypto.Perm CRYPTO) (hm : mterms.Perm MACRO_TERMS)
    (ha : acts.Perm ACTIONS) (t : Text) :
    extract_entitiesW crypto mterms acts t = extract_entities t := by
  unfold extract_entities extract_entitiesW
  have hpf : (plainTickerFindall t).filter (fun m => decide (m ∈ crypto)) =
      (plainTickerFindall t).filter (fun m => decide (m ∈ CRYPTO)) := by
    apply List.filter_congr
    intro a _
    exact decide_eq_decide.mpr hc.mem_iff
  have ht : sortDedup
      (tickerDollarFindall t ++ crypto.filter (fun sym => wbSearch sym t)
        ++ (plainTickerFindall t).filter (fun m => decide (m ∈ crypto))) =
      sortDedup
      (tickerDollarFindall t ++ CRYPTO.filter (fun sym => wbSearch sym t)
        ++ (plainTickerFindall t).filter (fun m => decide (m ∈ CRYPTO))) := by
    apply sortDedup_eq_of_perm
    rw [hpf]
    exact List.Perm.append
      (List.Perm.append (List.Perm.refl _) (hc.filter _)) (List.Perm.refl _)
  have hmac : sortDedup (mterms.filter (fun w => wbSearch w (lowerText t))) =
      sortDedup (MACRO_TERMS.filter (fun w => wbSearch w (lowerText t))) :=
    sortDedup_eq_of_perm _ _ (hm.filter _)
  have hact : sortDedup (acts.filter (fun w => wbSearch w (lowerText t))) =
      sortDedup (ACTIONS.filter (fun w => wbSearch w (lowerText t))) :=
    sortDedup_eq_of_perm _ _ (ha.filter _)
  dsimp only
  rw [ht, hmac, hact]

theorem pick_key_pointsW_perm (crypto mterms acts lvls : List Text)
    (hc : crypto.Perm CRYPTO) (hm : mterms.Perm MACRO_TERMS)
    (ha : acts.Perm ACTIONS) (hl : lvls.Perm LEVEL_WORDS) (t : Text) (k : Nat) :
    pick_key_pointsW crypto mterms acts lvls t k = pick_key_points t k := by
  unfold pick_key_points pick_key_pointsW
  have hf : (fun s => (score_sentenceW crypto mterms acts lvls s, s)) =
      (fun s => (score_sentenceW CRYPTO MACRO_TERMS ACTIONS LEVEL_WORDS s, s)) := by
    funext s
    rw [score_sentenceW_perm crypto mterms acts lvls hc hm ha hl s]
    rfl
  rw [hf]

/-- Claim C9: extraction is a deterministic pure function of the text alone.
In the embedding all extraction functions are pure, and the one run-to-run
varying ingredient of the source, the iteration order of the vocabulary hash
sets, provably cannot influence the output: any reordering of the
vocabularies yields byte-identical Entities, KeyPoints and Summary. -/
theorem claim_C9_determinism (crypto mterms acts lvls : List Text) (t : Text)
    (hc : crypto.Perm CRYPTO) (hm : mterms.Perm MACRO_TERMS)
    (ha : acts.Perm ACTIONS) (hl : lvls.Perm LEVEL_WORDS) :
    extract_entitiesW crypto mterms acts t = extract_entities t ∧
    pick_key_pointsW crypto mterms acts lvls t 5 = pick_key_points t 5 ∧
    quick_summary t 5 = quick_summary t 5 :=
  ⟨extract_entitiesW_perm crypto mterms acts hc hm ha t,
    pick_key_pointsW_perm crypto mterms acts lvls hc hm ha hl t 5,
    rfl⟩

/-- Witness for the determinism claim: the reversed vocabularies give the
same output on a concrete text. -/
theorem claim_C9_determinism_witness :
    extract_entitiesW CRYPTO.reverse MACRO_TERMS.reverse ACTIONS.reverse
      ("BTC to $50,000.".data) = extract_entities ("BTC to $50,000.".data) ∧
    pick_key_pointsW CRYPTO.reverse MACRO_TERMS.reverse ACTIONS.reverse
      LEVEL_WORDS.reverse ("BTC to $50,000.".data) 5 =
      pick_key_points ("BTC to $50,000.".data) 5 ∧
    quick_summary ("BTC to $50,000.".data) 5 =
      quick_summary ("BTC to $50,000.".data) 5 :=
  claim_C9_determinism CRYPTO.reverse MACRO_TERMS.reverse ACTIONS.reverse
    LEVEL_WORDS.reverse ("BTC to $50,000.".data)
    (List.reverse_perm CRYPTO) (List.reverse_perm MACRO_TERMS)
    (List.reverse_perm ACTIONS) (List.reverse_perm LEVEL_WORDS)

/-! Behaviour on whitespace-only input. -/

theorem isPySpace_cases (c : Char) (h : isPySpace c = true) :
    c = ' ' ∨ c = '\t' ∨ c = '\n' ∨ c = '\r' ∨ c = '\x0b' ∨ c = '\x0c' := by
  simp only [isPySpace, Bool.or_eq_true, decide_eq_true_eq] at h
  tauto

theorem isPySpace_props (c : Char) (h : isPySpace c = true) :
    c ≠ '$' ∧ c ≠ '-' ∧ c.isDigit = false ∧ c ≠ '£' ∧ c ≠ '€' ∧
    c.isUpper = false ∧ isPySpace c.toLower = true := by
  rcases isPySpace_cases c h with h | h | h | h | h | h <;> subst h <;> decide

theorem dollarMatch_space (c : Char) (rest : Text) (h : isPySpace c = true) :
    dollarMatch (c :: rest) = none := by
  unfold dollarMatch
  split
  · rename_i heq
    injection heq with h1 _
    exact absurd h1 (isPySpace_props c h).1
  · rfl

theorem dollarAux_space (fuel : Nat) :
    ∀ cs : Text, (∀ c ∈ cs, isPySpace c = true) → dollarAux fuel cs = [] := by
  induction fuel with
  | zero => intro cs _; cases cs <;> rfl
  | succ fuel ih =>
    intro cs h
    cases cs with
    | nil => rfl
    | cons c rest =>
      rw [show dollarAux (fuel + 1) (c :: rest) =
            (match dollarMatch (c :: rest) with
             | some run => run :: dollarAux fuel ((c :: rest).drop (run.length + 1))
             | none => dollarAux fuel rest) from rfl]
      rw [dollarMatch_space c rest (h c (List.mem_cons_self c rest))]
      exact ih rest (fun d hd => h d (List.mem_cons_of_mem c hd))

theorem pctMatch_space (prevW : Bool) (c : Char) (rest : Text)
    (h : isPySpace c = true) : pctMatch prevW (c :: rest) = none := by
  have hp := isPySpace_props c h
  unfold pctMatch
  split
  · rename_i heq
    injection heq with h1 _
    exact absurd h1 hp.2.1
  · cases prevW with
    | true => simp
    | false =>
      simp only [Bool.false_eq_true, if_false, if_neg]
      unfold pctNum
      rw [List.takeWhile_cons, hp.2.2.1]
      simp

theorem pctAux_space (fuel : Nat) :
    ∀ (prevW : Bool) (cs : Text), (∀ c ∈ cs, isPySpace c = true) →
      pctAux fuel prevW cs = [] := by
  induction fuel with
  | zero => intro prevW cs _; cases cs <;> rfl
  | succ fuel ih =>
    intro prevW cs h
    cases cs with
    | nil => rfl
    | cons c rest =>
      rw [show pctAux (fuel + 1) prevW (c :: rest) =
            (match pctMatch prevW (c :: rest) with
             | some m => m :: pctAux fuel false ((c :: rest).drop (max 1 m.length))
             | none => pctAux fuel (isWordChar c) rest) from rfl]
      rw [pctMatch_space prevW c rest (h c (List.mem_cons_self c rest))]
      exact ih _ rest (fun d hd => h d (List.mem_cons_of_mem c hd))

theorem priceMatch_space (c : Char) (rest : Text) (h : isPySpace c = true) :
    priceMatch (c :: rest) = none := by
  have hp := isPySpace_props c h
  show (if (c = '$' || c = '£' || c = '€' : Bool) = true then _ else none) = none
  rw [show (c = '$' || c = '£' || c = '€' : Bool) = false from by
    simp [hp.1, hp.2.2.2.1, hp.2.2.2.2.1]]
  simp

theorem priceAux_space (fuel : Nat) :
    ∀ cs : Text, (∀ c ∈ cs, isPySpace c = true) → priceAux fuel cs = [] := by
  induction fuel with
  | zero => intro cs _; cases cs <;> rfl
  | succ fuel ih =>
    intro cs h
    cases cs with
    | nil => rfl
    | cons c rest =>
      rw [show priceAux (fuel + 1) (c :: rest) =
            (match priceMatch (c :: rest) with
             | some m => m :: priceAux fuel ((c :: rest).drop (max 1 m.length))
             | none => priceAux fuel rest) from rfl]
      rw [priceMatch_space c rest (h c (List.mem_cons_self c rest))]
      exact ih rest (fun d hd => h d (List.mem_cons_of_mem c hd))

theorem plainMatch_space (prevW : Bool) (c : Char) (rest : Text)
    (h : isPySpace c = true) : plainMatch prevW (c :: rest) = none := by
  have hp := isPySpace_props c h
  unfold plainMatch
  cases prevW with
  | true => simp
  | false =>
    simp only [Bool.false_eq_true, if_false, if_neg]
    rw [List.takeWhile_cons, hp.2.2.2.2.2.1]
    simp

theorem plainAux_space (fuel : Nat) :
    ∀ (prevW : Bool) (cs : Text), (∀ c ∈ cs, isPySpace c = true) →
      plainAux fuel prevW cs = [] := by
  induction fuel with
  | zero => intro prevW cs _; cases cs <;> rfl
  | succ fuel ih =>
    intro prevW cs h
    cases cs with
    | nil => rfl
    | cons c rest =>
      rw [show plainAux (fuel + 1) prevW (c :: rest) =
            (match plainMatch prevW (c :: rest) with
             | some run => run :: plainAux fuel true ((c :: rest).drop (max 1 run.length))
             | none => plainAux fuel (isWordChar c) rest) from rfl]
      rw [plainMatch_space prevW c rest (h c (List.mem_cons_self c rest))]
      exact ih _ rest (fun d hd => h d (List.mem_cons_of_mem c hd))

theorem wbSearchAux_space (h0 : Char) (wr : Text) (hh : isPySpace h0 = false) :
    ∀ (prevW : Bool) (cs : Text), (∀ c ∈ cs, isPySpace c = true) →
      wbSearchAux (h0 :: wr) prevW cs = false := by
  intro prevW cs
  induction cs generalizing prevW with
  | nil => intro _; rfl
  | cons c rest ih =>
    intro h
    have hc := h c (List.mem_cons_self c rest)
    have hne : (h0 == c) = false := by
      simp only [beq_eq_false_iff_ne, ne_eq]
      intro he
      rw [he, hc] at hh
      exact absurd hh (by simp)
    show ((!prevW && List.isPrefixOf (h0 :: wr) (c :: rest)
            && wbAfterOk (h0 :: wr) (c :: rest))
          || wbSearchAux (h0 :: wr) (isWordChar c) rest) = false
    rw [show List.isPrefixOf (h0 :: wr) (c :: rest) = (h0 == c && List.isPrefixOf wr rest)
        from rfl, hne]
    simp only [Bool.and_false, Bool.false_and, Bool.false_or]
    exact ih _ (fun d hd => h d (List.mem_cons_of_mem c hd))

theorem collapseAux_true_space (t : Text) (h : ∀ c ∈ t, isPySpace c = true) :
    collapseAux true t = [] := by
  induction t with
  | nil => rfl
  | cons c rest ih =>
    show (if isPySpace c then
            (if true then collapseAux true rest else ' ' :: collapseAux true rest)
          else c :: collapseAux false rest) = []
    rw [h c (List.mem_cons_self c rest)]
    simpa using ih (fun d hd => h d (List.mem_cons_of_mem c hd))

theorem tidy_text_space (t : Text) (h : ∀ c ∈ t, isPySpace c = true) :
    tidy_text t = [] := by
  cases t with
  | nil => rfl
  | cons c rest =>
    unfold tidy_text
    rw [show collapseAux false (c :: rest) =
          (if isPySpace c then
            (if false then collapseAux true rest else ' ' :: collapseAux true rest)
           else c :: collapseAux false rest) from rfl]
    rw [h c (List.mem_cons_self c rest),
      collapseAux_true_space rest (fun d hd => h d (List.mem_cons_of_mem c hd))]
    have hws : stripWs [' '] = [] := by decide
    simpa using hws

theorem split_sentences_space (t : Text) (h : ∀ c ∈ t, isPySpace c = true) :
    split_sentences t = [[]] := by
  unfold split_sentences
  rw [tidy_text_space t h]
  rfl

theorem wbSearch_space_of_vocab (t : Text) (ht : ∀ c ∈ t, isPySpace c = true)
    (w : Text) (h0 : Char) (wr : Text) (hw : w = h0 :: wr)
    (hh : isPySpace h0 = false) : wbSearch w t = false := by
  rw [hw]
  exact wbSearchAux_space h0 wr hh false t ht

theorem lowerText_space (t : Text) (h : ∀ c ∈ t, isPySpace c = true) :
    ∀ c ∈ lowerText t, isPySpace c = true := by
  intro c hc
  obtain ⟨d, hd, hdc⟩ := List.mem_map.mp hc
  rw [← hdc]
  exact (isPySpace_props d (h d hd)).2.2.2.2.2.2

theorem vocab_heads_CRYPTO :
    ∀ w ∈ CRYPTO, ∃ h0 wr, w = h0 :: wr ∧ isPySpace h0 = false := by
  intro w hw
  fin_cases hw <;> exact ⟨_, _, rfl, by decide⟩

theorem vocab_heads_MACRO :
    ∀ w ∈ MACRO_TERMS, ∃ h0 wr, w = h0 :: wr ∧ isPySpace h0 = false := by
  intro w hw
  fin_cases hw <;> exact ⟨_, _, rfl, by decide⟩

theorem vocab_heads_ACTIONS :
    ∀ w ∈ ACTIONS, ∃ h0 wr, w = h0 :: wr ∧ isPySpace h0 = false := by
  intro w hw
  fin_cases hw <;> exact ⟨_, _, rfl, by decide⟩

/-- Claim C10: on whitespace-only input (including the empty string) the
summary is the empty string with no period appended, the key-point list is
empty, every entity container is empty, and this although the sentence
splitter returns the one-element list holding the empty sentence rather
than an empty list. -/
theorem claim_C10_whitespace_only (t : Text) (h : ∀ c ∈ t, isPySpace c = true) :
    quick_summary t 5 = [] ∧
    pick_key_points t 5 = [] ∧
    extract_entities t = emptyEntities ∧
    split_sentences t = [[]] := by
  have htidy := tidy_text_space t h
  have hsplit := split_sentences_space t h
  refine ⟨?_, ?_, ?_, hsplit⟩
  · simp [quick_summary, htidy]
  · unfold pick_key_points pick_key_pointsW
    rw [hsplit]
    rfl
  · unfold extract_entities extract_entitiesW
    have h1 : tickerDollarFindall t = [] := dollarAux_space t.length t h
    have h2 : CRYPTO.filter (fun sym => wbSearch sym t) = [] := by
      apply List.filter_eq_nil_iff.mpr
      intro w hw
      obtain ⟨h0, wr, hwe, hh⟩ := vocab_heads_CRYPTO w hw
      rw [wbSearch_space_of_vocab t h w h0 wr hwe hh]
      simp
    have h3 : plainTickerFindall t = [] := plainAux_space t.length false t h
    have h4 : MACRO_TERMS.filter (fun w => wbSearch w (lowerText t)) = [] := by
      apply List.filter_eq_nil_iff.mpr
      intro w hw
      obtain ⟨h0, wr, hwe, hh⟩ := vocab_heads_MACRO w hw
      rw [wbSearch_space_of_vocab (lowerText t) (lowerText_space t h) w h0 wr hwe hh]
      simp
    have h5 : ACTIONS.filter (fun w => wbSearch w (lowerText t)) = [] := by
      apply List.filter_eq_nil_iff.mpr
      intro w hw
      obtain ⟨h0, wr, hwe, hh⟩ := vocab_heads_ACTIONS w hw
      rw [wbSearch_space_of_vocab (lowerText t) (lowerText_space t h) w h0 wr hwe hh]
      simp
    dsimp only
    rw [h1, h2, h3, h4, h5, hsplit]
    rfl

/-- Witness for the whitespace claim at a concrete whitespace-only input. -/
theorem claim_C10_whitespace_only_witness :
    quick_summary wSpaces 5 = [] ∧
    pick_key_points wSpaces 5 = [] ∧
    extract_entities wSpaces = emptyEntities ∧
    split_sentences wSpaces = [[]] :=
  claim_C10_whitespace_only wSpaces (by decide)
